import Mathlib

/-!
Verification of the extension-enablement resolution and settings
synchronization engine of the `pi-extmgr` repository.

The definitions below are a shallow embedding of the TypeScript sources
`src/packages/extensions.ts` and `src/packages/management.ts` (plus, where a
helper module is absent from the snapshot, a model written from the spec and
marked as such).  JavaScript strings are embedded as Lean `String`, worked on
through their underlying `List Char`; functions that do file IO are embedded
as pure functions over the data they read and write.  The host's glob matcher
(`node:path` `matchesGlob`), which may throw on a malformed pattern, is
embedded as a parameter of type `Glob` returning `Except Unit Bool`; a
concrete executable model `nodeGlob` of the fragment of its behaviour used by
the claims is provided for witnesses.
-/

/-- Enabled/disabled verdict, `State` in `src/types`. -/
inductive State where
  | enabled
  | disabled
deriving DecidableEq, Repr

/-- Settings scope, `Scope` in `src/types`. -/
inductive Scope where
  | global
  | project
deriving DecidableEq, Repr

/-- JavaScript whitespace (the ASCII part of `\s` and of `String.trim`). -/
def isWs (c : Char) : Bool :=
  c == ' ' || c == '\t' || c == '\n' || c == '\r' || c == '\x0b' || c == '\x0c'

/-- `String.prototype.trim` on the character list. -/
def jsTrim (cs : List Char) : List Char :=
  (((cs.dropWhile isWs).reverse).dropWhile isWs).reverse

/-- `String.prototype.trim`. -/
def jsTrimStr (s : String) : String := ⟨jsTrim s.data⟩

/-- `normalizeRelativePath` (extensions.ts:25-28) on the character list:
replace every backslash by a slash, strip one leading `./`, strip all
leading slashes. -/
def normChars (cs : List Char) : List Char :=
  let cs := cs.map (fun c => if c == '\\' then '/' else c)
  let cs := match cs with
    | '.' :: '/' :: rest => rest
    | other => other
  cs.dropWhile (fun c => c == '/')

/-- `normalizeRelativePath` (extensions.ts:25-28). -/
def normalizeRelativePathStr (s : String) : String := ⟨normChars s.data⟩

/-- Strip a trailing ` (filtered)` / ` (pinned)` decoration, case-insensitively,
with at least one whitespace character before the parenthesis; the trimmed
input is otherwise returned unchanged.  Helper for `normalizeSource`. -/
def stripDecoration (cs : List Char) : List Char :=
  let r := cs.reverse
  match r with
  | ')' :: r1 =>
    let tryWord (w : List Char) (rest : List Char) : Option (List Char) :=
      if w.isPrefixOf (rest.map Char.toLower) then
        match rest.drop w.length with
        | '(' :: r3 =>
          let r4 := r3.dropWhile isWs
          if r4.length < r3.length then some r4.reverse else none
        | _ => none
      else none
    match tryWord "filtered".data.reverse r1 with
    | some out => out
    | none =>
      match tryWord "pinned".data.reverse r1 with
      | some out => out
      | none => cs
  | _ => cs

/-- `normalizeSource` (extensions.ts:30-35): trim, strip a trailing
`" (filtered)"` / `" (pinned)"` decoration (case-insensitive), trim again. -/
def normalizeSource (s : String) : String :=
  ⟨jsTrim (stripDecoration (jsTrim s.data))⟩

/-- The host glob matcher: `matchesGlob` from `node:path`.  It may throw on a
malformed pattern, which the embedding renders as `Except.error`. -/
abbrev Glob := String → String → Except Unit Bool

/-- Minimal executable model of `node:path` `matchesGlob` for the patterns the
claims exercise: `*` matches a run of non-separator characters, `?` one
non-separator character, everything else is literal.  `globMatchF` is fueled
so that the kernel can evaluate it. -/
def globMatchF : Nat → List Char → List Char → Bool
  | 0, _, _ => false
  | _ + 1, [], t => t.isEmpty
  | f + 1, '*' :: ps, t =>
    globMatchF f ps t ||
      (match t with
       | [] => false
       | c :: ts => !(c == '/') && globMatchF f ('*' :: ps) ts)
  | f + 1, q :: ps, t =>
    match t with
    | [] => false
    | c :: ts => (if q == '?' then !(c == '/') else q == c) && globMatchF f ps ts

/-- Glob matching with enough fuel to run to completion. -/
def globMatch (pattern target : List Char) : Bool :=
  globMatchF (pattern.length + target.length + 1) pattern target

/-- Concrete `Glob` instance backed by `globMatch`; it never throws. -/
def nodeGlob : Glob := fun target pattern => Except.ok (globMatch pattern.data target.data)

/-- A `Glob` instance that throws on every input (a malformed-pattern stand-in). -/
def errGlob : Glob := fun _ _ => Except.error ()

/-- `safeMatchesGlob` (extensions.ts:209-215): glob matching with the
exception caught and turned into a non-match. -/
def safeMatchesGlob (g : Glob) (targetPath pattern : String) : Bool :=
  match g targetPath pattern with
  | Except.ok b => b
  | Except.error _ => false

/-- `matchesFilterPattern` (extensions.ts:217-223). -/
def matchesFilterPattern (g : Glob) (targetPath pattern : String) : Bool :=
  let normalizedPattern := normalizeRelativePathStr (jsTrimStr pattern)
  if normalizedPattern == "" then false
  else if targetPath == normalizedPattern then true
  else safeMatchesGlob g targetPath normalizedPattern

/-- Accumulator of the token-partitioning loop of `getPackageFilterState`. -/
structure FilterAcc where
  includes : List String
  excludes : List String
  marker : Option State

/-- One iteration of the token loop of `getPackageFilterState`
(extensions.ts:241-267). -/
def processToken (target : String) (acc : FilterAcc) (rawToken : String) : FilterAcc :=
  match (jsTrimStr rawToken).data with
  | [] => acc
  | c :: rest =>
    if c = '+' ∨ c = '-' then
      if normalizeRelativePathStr ⟨rest⟩ = target then
        { acc with marker := some (if c = '+' then State.enabled else State.disabled) }
      else acc
    else if c = '!' then
      let pat := normalizeRelativePathStr ⟨rest⟩
      if pat = "" then acc else { acc with excludes := acc.excludes ++ [pat] }
    else
      let inc := normalizeRelativePathStr ⟨c :: rest⟩
      if inc = "" then acc else { acc with includes := acc.includes ++ [inc] }

/-- `getPackageFilterState` (extensions.ts:225-282): the filter-policy
resolver (`resolveState` of the spec). -/
def getPackageFilterState (g : Glob) (filters : Option (List String))
    (extensionPath : String) : State :=
  match filters with
  | none => State.enabled
  | some fs =>
    if fs = [] then State.disabled
    else
      let target := normalizeRelativePathStr extensionPath
      let acc := fs.foldl (processToken target) ⟨[], [], none⟩
      let baseEnabled :=
        acc.includes.isEmpty || acc.includes.any (fun p => matchesFilterPattern g target p)
      let afterExcl :=
        if baseEnabled && acc.excludes.any (fun p => matchesFilterPattern g target p) then false
        else baseEnabled
      match acc.marker with
      | some m => m
      | none => if afterExcl then State.enabled else State.disabled

/-- Does the (trimmed) token act as an override marker for `target` inside
`getPackageFilterState`'s loop? -/
def isMarkerFor (target rawToken : String) : Bool :=
  match (jsTrimStr rawToken).data with
  | [] => false
  | c :: rest => (c == '+' || c == '-') && (normalizeRelativePathStr ⟨rest⟩ == target)

/-- The state an override-marker token encodes: `+` enables, everything else
disables (only called on tokens satisfying `isMarkerFor`). -/
def markerState (rawToken : String) : State :=
  match (jsTrimStr rawToken).data with
  | '+' :: _ => State.enabled
  | _ => State.disabled

/-- The last token of the list that is an override marker for `target`. -/
def lastMarkerFor (target : String) : List String → Option String
  | [] => none
  | t :: rest =>
    match lastMarkerFor target rest with
    | some m => some m
    | none => if isMarkerFor target t then some t else none

/-- Result of running a removal command for one scope target
(`RemovalTarget`, management.ts:195-199). -/
structure RemovalTarget where
  scope : Scope
  source : String
  name : String
deriving DecidableEq, Repr

/-- Exit code and captured output of one external command invocation. -/
structure ExecResult where
  code : Int
  stdout : String
  stderr : String
deriving DecidableEq, Repr

/-- `RemovalExecutionResult` (management.ts:264-268). -/
structure RemovalExecutionResult where
  target : RemovalTarget
  success : Bool
  error : Option String
deriving DecidableEq, Repr

/-- The scope name as it is interpolated into messages. -/
def scopeName : Scope → String
  | Scope.global => "global"
  | Scope.project => "project"

/-- The error message built for a failing removal
(management.ts:284): `Remove failed (<scope>): <stderr || stdout || exit code>`. -/
def removalErrorMessage (t : RemovalTarget) (res : ExecResult) : String :=
  "Remove failed (" ++ scopeName t.scope ++ "): " ++
    (if res.stderr ≠ "" then res.stderr
     else if res.stdout ≠ "" then res.stdout
     else "exit " ++ toString res.code)

/-- `executeRemovalTargets` (management.ts:270-295), with the external
`pi remove` invocation abstracted as `exec`: every target is executed
sequentially and classified independently by exit code. -/
def executeRemovalTargets (exec : RemovalTarget → ExecResult)
    (targets : List RemovalTarget) : List RemovalExecutionResult :=
  targets.map (fun t =>
    let res := exec t
    if res.code ≠ 0 then ⟨t, false, some (removalErrorMessage t res)⟩
    else ⟨t, true, none⟩)

/-- The failure aggregation of `removePackageInternal` (management.ts:362-366):
results that failed and carry a non-empty error message, projected to the
messages. -/
def removalFailures (results : List RemovalExecutionResult) : List String :=
  (results.filter (fun r => !r.success &&
    (match r.error with
     | some e => !(e == "")
     | none => false))).filterMap (fun r => r.error)

/-- The success aggregation of `removePackageInternal` (management.ts:367-369). -/
def successfulTargets (results : List RemovalExecutionResult) : List RemovalTarget :=
  (results.filter (fun r => r.success)).map (fun r => r.target)

/-- A file system modelled as an association list from paths to contents;
earlier bindings shadow later ones. -/
abbrev FS := List (String × String)

/-- Content of a path, first binding wins. -/
def fsGet : FS → String → Option String
  | [], _ => none
  | (k, v) :: rest, q => if k == q then some v else fsGet rest q

/-- `writeFile`: (over)write a path. -/
def fsSet (fs : FS) (k v : String) : FS := (k, v) :: fs

/-- `rm` with `force`: drop every binding of a path. -/
def fsDelete : FS → String → FS
  | [], _ => []
  | (k, v) :: rest, q => if k == q then fsDelete rest q else (k, v) :: fsDelete rest q

/-- Witness fixture: an external command that succeeds for the global scope
and fails for the project scope. -/
def wRemovalExec : RemovalTarget → ExecResult :=
  fun t => if t.scope = Scope.global then ⟨0, "removed", ""⟩ else ⟨1, "", "boom"⟩

/-- Witness fixture: the global-scope removal target. -/
def wGlobalTarget : RemovalTarget := ⟨Scope.global, "npm:demo", "demo"⟩

/-- Witness fixture: the project-scope removal target. -/
def wProjectTarget : RemovalTarget := ⟨Scope.project, "npm:demo", "demo"⟩

/-- `rename`: move the content of `src` onto `dst` (no-op when `src` is absent). -/
def fsRename (fs : FS) (src dst : String) : FS :=
  match fsGet fs src with
  | none => fs
  | some v => fsSet (fsDelete fs src) dst v

/-- The temporary-file name of `writeSettingsFile` (extensions.ts:197):
`<path>.<pid>.<timestamp>.tmp`. -/
def tmpName (path pid time : String) : String :=
  path ++ "." ++ pid ++ "." ++ time ++ ".tmp"

/-- `writeSettingsFile` (extensions.ts:192-207) stopped right after the
temporary-file write, before the rename (simulated crash). -/
def writeSettingsCrashAfterTmp (fs : FS) (path pid time content : String) : FS :=
  fsSet fs (tmpName path pid time) content

/-- A complete run of `writeSettingsFile` (extensions.ts:192-207): write the
temporary file, rename it onto the final path — falling back to a direct
write when the rename fails (`renameOk = false`) — then remove the
temporary file regardless of outcome. -/
def writeSettingsRun (fs : FS) (path pid time content : String) (renameOk : Bool) : FS :=
  let tmp := tmpName path pid time
  let fs1 := fsSet fs tmp content
  let fs2 := if renameOk then fsRename fs1 tmp path else fsSet fs1 path content
  fsDelete fs2 tmp

/-- `startsWith` on Lean strings via the underlying character lists. -/
def strStartsWith (s pat : String) : Bool := pat.data.isPrefixOf s.data

/-- Does `pat` occur as a contiguous subsequence of `s`? (JS `includes`). -/
def containsSeq (pat : List Char) : List Char → Bool
  | [] => pat.isEmpty
  | c :: t => pat.isPrefixOf (c :: t) || containsSeq pat t

/-- `isSafeRelativePath` (extensions.ts:317-319). -/
def isSafeRelativePath (s : String) : Bool :=
  !(s == "") && !(s == "..") && !(strStartsWith s "../") && !(containsSeq "/../".data s.data)

/-- `hasGlobMagic` (extensions.ts:313-315). -/
def hasGlobMagic (s : String) : Bool :=
  s.data.any (fun c =>
    c == '*' || c == '?' || c == '\x7b' || c == '\x7d' || c == '[' || c == ']')

/-- `isExtensionEntrypointPath` (extensions.ts:309-311): a case-insensitive
`.ts` or `.js` suffix. -/
def isExtensionEntrypointPath (s : String) : Bool :=
  let d := s.data.map Char.toLower
  ".ts".data.isSuffixOf d || ".js".data.isSuffixOf d

/-- The trailing `[\\/]+` strip of `resolveManifestExtensionEntries`
(extensions.ts:383). -/
def stripTrailingSlashes (s : String) : String :=
  ⟨(s.data.reverse.dropWhile (fun c => c == '/' || c == '\\')).reverse⟩

/-- `selectDirectoryFiles` (extensions.ts:321-324). -/
def selectDirectoryFiles (allFiles : List String) (directoryPath : String) : List String :=
  allFiles.filter (fun f => strStartsWith f (directoryPath ++ "/"))

/-- `applySelection` (extensions.ts:326-334); the JS `Set` is embedded as a
duplicate-free list in insertion order. -/
def applySelection (selected : List String) (files : List String) (exclude : Bool) :
    List String :=
  files.foldl
    (fun sel f =>
      if exclude then sel.filter (fun x => !(x == f))
      else if sel.contains f then sel else sel ++ [f])
    selected

/-- One iteration of the token loop of `resolveManifestExtensionEntries`
(extensions.ts:377-403). -/
def processManifestToken (g : Glob) (allFiles : List String) (selected : List String)
    (rawToken : String) : List String :=
  let token := jsTrimStr rawToken
  if token == "" then selected
  else
    let exclude := strStartsWith token "!"
    let normalizedToken :=
      normalizeRelativePathStr (if exclude then (⟨token.data.drop 1⟩ : String) else token)
    let pattern := stripTrailingSlashes normalizedToken
    if !(isSafeRelativePath pattern) then selected
    else if hasGlobMagic pattern then
      applySelection selected (allFiles.filter (fun f => matchesFilterPattern g f pattern))
        exclude
    else
      let directoryFiles := selectDirectoryFiles allFiles pattern
      if !(directoryFiles.isEmpty) then applySelection selected directoryFiles exclude
      else if isExtensionEntrypointPath pattern then applySelection selected [pattern] exclude
      else selected

/-- Lexicographic character-list order; embeds the `localeCompare` sort of
`resolveManifestExtensionEntries` for the ASCII paths the claims exercise. -/
def charListLe : List Char → List Char → Bool
  | [], _ => true
  | _ :: _, [] => false
  | a :: as, b :: bs => if a < b then true else if b < a then false else charListLe as bs

/-- Ordered insertion used by `sortStrings`. -/
def insertSorted (x : String) : List String → List String
  | [] => [x]
  | y :: t => if charListLe x.data y.data then x :: y :: t else y :: insertSorted x t

/-- The final sort of `resolveManifestExtensionEntries` (extensions.ts:405). -/
def sortStrings (l : List String) : List String :=
  l.foldl (fun acc x => insertSorted x acc) []

/-- `resolveManifestExtensionEntries` (extensions.ts:370-406), with the
recursive file listing of the package root passed as `allFiles`. -/
def resolveManifestExtensionEntries (g : Glob) (allFiles entries : List String) :
    List String :=
  sortStrings (entries.foldl (processManifestToken g allFiles) [])

/-- Split a character list at the last occurrence of `sep`:
`some (before, after)` when `sep` occurs. -/
def lastSplitOn (sep : Char) : List Char → Option (List Char × List Char)
  | [] => none
  | c :: t =>
    match lastSplitOn sep t with
    | some (b, a) => some (c :: b, a)
    | none => if c = sep then some ([], t) else none

/-- A parsed npm source reference. -/
structure NpmRef where
  name : String
  version : Option String
deriving DecidableEq, Repr

/-- Is the string plausible as a bare npm package name (possibly scoped)? -/
def npmNameOk (n : String) : Bool :=
  !(n == "") &&
    !(n.data.any (fun c => isWs c || c == ':' || c == '\\')) &&
    !(strStartsWith n ".") && !(strStartsWith n "/") && !(strStartsWith n "~")

/-- Modelled from the spec: `parseNpmSource` is imported from
`src/utils/format.ts`, which is absent from the source snapshot.  Per the
spec (§4.6, §8), the package-manager name is "derivable" from both an
`npm:name@version` spec and a bare recorded name carrying a
`" (pinned)"`/`" (filtered)"` decoration: the source is normalized with
`normalizeSource`, an optional `npm:` scheme is stripped, and the remainder
is split at the last `@` into `name[@version]`; path-like and other-scheme
sources do not parse as npm names. -/
def parseNpmSource (source : String) : Option NpmRef :=
  let s := normalizeSource source
  let body : String := if strStartsWith s "npm:" then ⟨s.data.drop 4⟩ else s
  match body.data with
  | [] => none
  | c :: rest =>
    let split :=
      match lastSplitOn '@' rest with
      | some (before, after) => (c :: before, some (String.mk after))
      | none => (c :: rest, none)
    let name : String := ⟨split.1⟩
    if npmNameOk name then some ⟨name, split.2⟩ else none

/-- The source kinds distinguished by `packageIdentity` after the npm parse
fails. -/
inductive SourceKind where
  | git
  | localPath
  | other
deriving DecidableEq, Repr

/-- Modelled from the spec: `getPackageSourceKind` is imported from
`src/utils/package-source.ts`, absent from the snapshot.  Spec §6 lists the
consumed source formats: a version-control scheme, an
absolute/relative/home-relative filesystem path, or something else. -/
def getPackageSourceKind (s : String) : SourceKind :=
  if strStartsWith s "git:" then SourceKind.git
  else if strStartsWith s "/" || strStartsWith s "./" || strStartsWith s "../" ||
      strStartsWith s "~/" || strStartsWith s "file://" || strStartsWith s "\\\\" then
    SourceKind.localPath
  else SourceKind.other

/-- Modelled from the spec: `splitGitRepoAndRef` (src/utils/package-source.ts,
absent from the snapshot) separates the "repository+locator" of a
version-control source at the last `#`. -/
def splitGitRepoAndRef (s : String) : String × Option String :=
  match lastSplitOn '#' s.data with
  | some (b, a) => (⟨b⟩, some ⟨a⟩)
  | none => (s, none)

/-- Modelled from the spec: `normalizeLocalSourceIdentity`
(src/utils/package-source.ts, absent from the snapshot) produces "a
normalized local-path identity"; the claims settled here never reach this
branch, so the path itself stands in for its normal form. -/
def normalizeLocalSourceIdentity (s : String) : String := s

/-- `packageIdentity` (management.ts:159-182): a scope-independent identity
for a package source string. -/
def packageIdentity (source : String) (fallbackName : Option String) : String :=
  match parseNpmSource source with
  | some npm => "npm:" ++ npm.name
  | none =>
    match getPackageSourceKind source with
    | SourceKind.git =>
      let gitSpec : String :=
        if strStartsWith source "git:" then ⟨source.data.drop 4⟩ else source
      "git:" ++ (splitGitRepoAndRef gitSpec).1
    | SourceKind.localPath => "src:" ++ normalizeLocalSourceIdentity source
    | SourceKind.other =>
      match fallbackName with
      | some n => "name:" ++ n
      | none => "src:" ++ source

/-- An installed-package record as consumed by the removal coordinator. -/
structure InstalledPackage where
  source : String
  name : String
  scope : Scope
deriving DecidableEq, Repr

/-- A `packages` entry of the settings document: either the legacy bare
source string or the object form `{ source, extensions? }`. -/
inductive PackageEntry where
  | bare (source : String)
  | obj (source : String) (extensions : Option (List String))
deriving DecidableEq, Repr

/-- The per-scope settings document (`SettingsFile`, extensions.ts:18-20). -/
structure SettingsFile where
  packages : Option (List PackageEntry)
deriving DecidableEq, Repr

/-- The source string of a packages entry, as compared by the lookup
predicates of extensions.ts:295-300 and 502-507. -/
def entrySource : PackageEntry → String
  | PackageEntry.bare s => s
  | PackageEntry.obj s _ => s

/-- `getPackageExtensionState` (extensions.ts:284-307) with the settings
document it reads passed in place of the scope/cwd file lookup. -/
def getPackageExtensionState (g : Glob) (settings : SettingsFile)
    (packageSource extensionPath : String) : State :=
  let packages := settings.packages.getD []
  let ns := normalizeSource packageSource
  match packages.find? (fun pkg => normalizeSource (entrySource pkg) == ns) with
  | none => State.enabled
  | some (PackageEntry.bare _) => State.enabled
  | some (PackageEntry.obj _ exts) => getPackageFilterState g exts extensionPath

/-- The untrimmed marker test of `setPackageExtensionState`'s token filter
(extensions.ts:527-531): raw first character `+`/`-` and the rest
normalizing to the target path. -/
def isRemovalMarker (np : String) (tok : String) : Bool :=
  match tok.data with
  | [] => false
  | c :: rest => (c == '+' || c == '-') && (normalizeRelativePathStr ⟨rest⟩ == np)

/-- The override marker written by `setPackageExtensionState`
(extensions.ts:499): `+`/`-` followed by the normalized path. -/
def markerFor (target : State) (np : String) : String :=
  (if target = State.enabled then "+" else "-") ++ np

/-- The update `setPackageExtensionState` applies to the matched entry
(extensions.ts:515-533): normalize to object form, drop the raw override
markers for the path, append the new marker. -/
def updateEntry (e : PackageEntry) (np marker : String) : PackageEntry :=
  match e with
  | PackageEntry.bare s => PackageEntry.obj s (some [marker])
  | PackageEntry.obj s exts =>
    PackageEntry.obj s
      (some ((exts.getD []).filter (fun t => !(isRemovalMarker np t)) ++ [marker]))

/-- The package-list rewrite of `setPackageExtensionState`
(extensions.ts:501-534): update the first entry whose normalized source
matches, appending a fresh object entry when none does. -/
def setInList (ns packageSource np marker : String) :
    List PackageEntry → List PackageEntry
  | [] => [PackageEntry.obj packageSource (some [marker])]
  | e :: rest =>
    if normalizeSource (entrySource e) == ns then updateEntry e np marker :: rest
    else e :: setInList ns packageSource np marker rest

/-- The pure core of `setPackageExtensionState` (extensions.ts:486-547): the
document transformation between the strict read and the atomic write. -/
def setPackageExtensionStateCore (settings : SettingsFile)
    (packageSource extensionPath : String) (target : State) : SettingsFile :=
  let ns := normalizeSource packageSource
  let np := normalizeRelativePathStr extensionPath
  let marker := markerFor target np
  ⟨some (setInList ns packageSource np marker (settings.packages.getD []))⟩

/-- Does the string end in a non-whitespace character (or is empty)? -/
def noTrailingWs (s : String) : Bool :=
  match s.data.getLast? with
  | none => true
  | some c => !(isWs c)

/-- ASCII word character, the `\w` class backing `\b` in the update-output
regexes. -/
def isWordChar (c : Char) : Bool := c.isAlpha || c.isDigit || c == '_'

/-- Case-insensitive character comparison (ASCII `i` flag). -/
def lowerEq (a b : Char) : Bool := a.toLower == b.toLower

/-- Consume the literal `lit` case-insensitively from the front of the
input, returning the remainder. -/
def eatCI : List Char → List Char → Option (List Char)
  | [], cs => some cs
  | _ :: _, [] => none
  | l :: ls, c :: cs => if lowerEq l c then eatCI ls cs else none

/-- Consume `\s+` greedily (at least one whitespace character, then the
maximal run); deterministic here because every use is followed by a
non-whitespace literal. -/
def eatWs1 : List Char → Option (List Char)
  | [] => none
  | c :: rest => if isWs c then some (rest.dropWhile isWs) else none

/-- Does `/already\s+up\s+to\s+date/i` match at this position? -/
def alreadyAt (cs : List Char) : Bool :=
  match eatCI "already".data cs with
  | none => false
  | some r1 =>
    match eatWs1 r1 with
    | none => false
    | some r2 =>
      match eatCI "up".data r2 with
      | none => false
      | some r3 =>
        match eatWs1 r3 with
        | none => false
        | some r4 =>
          match eatCI "to".data r4 with
          | none => false
          | some r5 =>
            match eatWs1 r5 with
            | none => false
            | some r6 => (eatCI "date".data r6).isSome

/-- Does `/already\s+up\s+to\s+date/i` match anywhere in the input? -/
def scanAlready : List Char → Bool
  | [] => false
  | c :: t => alreadyAt (c :: t) || scanAlready t

/-- The negative lookahead `(?!\s+dependency\b)` of the pinned regex
(management.ts:49): whitespace, then `dependency`, then a word boundary. -/
def wsDepLookahead (cs : List Char) : Bool :=
  match eatWs1 cs with
  | none => false
  | some r1 =>
    match eatCI "dependency".data r1 with
    | none => false
    | some r2 =>
      match r2 with
      | [] => true
      | c :: _ => !(isWordChar c)

/-- The tail `(?:\s*$|\s*[:(-])` of the pinned regex under the `m` flag:
either whitespace up to a line end or end of input, or whitespace followed
by a colon, opening parenthesis or dash. -/
def pinnedTail (cs : List Char) : Bool :=
  ((cs.takeWhile isWs).contains '\n' || (cs.dropWhile isWs).isEmpty) ||
    (match cs.dropWhile isWs with
     | c :: _ => c == ':' || c == '(' || c == '-'
     | [] => false)

/-- Does `/^\s*pinned\b(?!\s+dependency\b)(?:\s*$|\s*[:(-])/im` match at
this line-start position?  (`\s*` may cross line breaks, as in the regex.) -/
def pinnedAt (cs : List Char) : Bool :=
  match eatCI "pinned".data (cs.dropWhile isWs) with
  | none => false
  | some r =>
    (match r with
     | [] => true
     | c :: _ => !(isWordChar c)) &&
      !(wsDepLookahead r) && pinnedTail r

/-- Scan all multiline `^` anchor positions (start of input and every
position after a newline) for a pinned-status match. -/
def pinnedScan : Bool → List Char → Bool
  | b, [] => b && pinnedAt []
  | b, c :: t => (b && pinnedAt (c :: t)) || pinnedScan (c == '\n') t

/-- `isUpToDateOutput` (management.ts:48-51): the no-op classifier over the
update command's stdout. -/
def isUpToDateOutput (s : String) : Bool :=
  scanAlready s.data || pinnedScan true s.data

/-- Case-insensitive list equality (`ciEqList w lit`: the occurrence `w`
matches the literal `lit`). -/
def ciEqList : List Char → List Char → Bool
  | [], [] => true
  | a :: as, b :: bs => lowerEq b a && ciEqList as bs
  | _, _ => false

/-- Does the literal occur case-insensitively anywhere in the input? -/
def containsCI (lit : List Char) : List Char → Bool
  | [] => (eatCI lit []).isSome
  | c :: t => (eatCI lit (c :: t)).isSome || containsCI lit t

/-- Every case-insensitive occurrence of `pinned` in the input is followed
by whitespace and a word-bounded `dependency` (the "pinned dependency"
phrasing). -/
def pinnedOnlyDep : List Char → Bool
  | [] => true
  | c :: t =>
    (match eatCI "pinned".data (c :: t) with
     | some r => wsDepLookahead r
     | none => true) && pinnedOnlyDep t

/-- Split the input into lines at newline characters. -/
def splitLines : List Char → List (List Char)
  | [] => [[]]
  | c :: rest =>
    if c = '\n' then [] :: splitLines rest
    else
      match splitLines rest with
      | l :: ls => (c :: l) :: ls
      | [] => [[c]]

/-- The reading of C7's pinned clause taken literally: some line starts with
`pinned` followed immediately by end of line, a colon, an opening
parenthesis or a dash. -/
def claimPinnedAnchored (s : String) : Bool :=
  (splitLines s.data).any (fun line =>
    "pinned".data.isPrefixOf line &&
      (let rest := line.drop 6
       rest.isEmpty ||
         (match rest with
          | c :: _ => c == ':' || c == '(' || c == '-'
          | [] => true)))

/-- The three report outcomes of `updatePackageInternal`
(management.ts:53-91): a non-zero exit reports a failure carrying the
captured output; a zero exit whose stdout the no-op classifier accepts
reports the "already up to date (or pinned)" outcome and never prompts for
reload; any other zero exit reports a genuine update. -/
inductive UpdateOutcome where
  | failed (message : String)
  | upToDate
  | updated
deriving DecidableEq, Repr

/-- The failure message of `updatePackageInternal` (management.ts:66):
`Update failed: <stderr || stdout || exit code>`. -/
def updateErrorMessage (res : ExecResult) : String :=
  "Update failed: " ++
    (if res.stderr ≠ "" then res.stderr
     else if res.stdout ≠ "" then res.stdout
     else "exit " ++ toString res.code)

/-- The outcome classification of `updatePackageInternal`
(management.ts:65-91): exit code first, then the stdout no-op classifier. -/
def classifyUpdateOutcome (res : ExecResult) : UpdateOutcome :=
  if res.code ≠ 0 then UpdateOutcome.failed (updateErrorMessage res)
  else if isUpToDateOutput res.stdout then UpdateOutcome.upToDate
  else UpdateOutcome.updated

theorem processToken_marker (target : String) (acc : FilterAcc) (tok : String) :
    (processToken target acc tok).marker =
      if isMarkerFor target tok then some (markerState tok) else acc.marker := by
  unfold processToken isMarkerFor markerState
  rcases h : (jsTrimStr tok).data with _ | ⟨c, rest⟩
  · simp
  · by_cases hc : c = '+' ∨ c = '-'
    · rcases hc with hc | hc <;> subst hc <;>
        by_cases hp : normalizeRelativePathStr ⟨rest⟩ = target <;>
        simp [hp]
    · have h1 : ¬ c = '+' := fun h => hc (Or.inl h)
      have h2 : ¬ c = '-' := fun h => hc (Or.inr h)
      simp only [if_neg hc, beq_iff_eq, h1, h2]
      by_cases hb : c = '!'
      · subst hb
        simp only [if_pos rfl]
        by_cases hp : normalizeRelativePathStr ⟨rest⟩ = ""
        · simp [hp]
        · simp [hp]
      · simp only [if_neg hb]
        by_cases hp : normalizeRelativePathStr ⟨c :: rest⟩ = ""
        · simp [hp, hc]
        · simp [hp, hc]

theorem foldl_marker (target : String) (fs : List String) (acc : FilterAcc) :
    (fs.foldl (processToken target) acc).marker =
      match lastMarkerFor target fs with
      | some tok => some (markerState tok)
      | none => acc.marker := by
  induction fs generalizing acc with
  | nil => rfl
  | cons t rest ih =>
    simp only [List.foldl_cons, lastMarkerFor, ih]
    rcases hrest : lastMarkerFor target rest with _ | m
    · rw [processToken_marker]
      by_cases hm : isMarkerFor target t <;> simp [hm]
    · simp

/-- C1: for any token list containing at least one override marker whose
normalized path equals the normalized target path, the resolver's verdict is
the sign of the last such marker in list order (`+` yields enabled, `-`
yields disabled), regardless of the include or exclude patterns in the same
list. -/
theorem overrides_take_priority (g : Glob) (fs : List String) (path tok : String)
    (h : lastMarkerFor (normalizeRelativePathStr path) fs = some tok) :
    getPackageFilterState g (some fs) path = markerState tok := by
  have hne : fs ≠ [] := by
    intro he
    rw [he] at h
    exact Option.noConfusion h
  unfold getPackageFilterState
  simp only [if_neg hne]
  rw [foldl_marker, h]

/-- Witness for `overrides_take_priority`: includes, an exclude and two
override markers all touch `a.ts`; the last marker (`-a.ts`) decides. -/
theorem overrides_take_priority_witness :
    lastMarkerFor (normalizeRelativePathStr "a.ts")
        ["a.ts", "!a.ts", "+a.ts", "-a.ts"] = some "-a.ts" ∧
      getPackageFilterState nodeGlob (some ["a.ts", "!a.ts", "+a.ts", "-a.ts"]) "a.ts" =
        markerState "-a.ts" :=
  ⟨by decide,
   overrides_take_priority nodeGlob ["a.ts", "!a.ts", "+a.ts", "-a.ts"] "a.ts" "-a.ts"
     (by decide)⟩

/-- C2: a wholly absent token list resolves to enabled, a present-but-empty
token list resolves to disabled. -/
theorem default_and_empty_filter (g : Glob) (p : String) :
    getPackageFilterState g none p = State.enabled ∧
      getPackageFilterState g (some []) p = State.disabled :=
  ⟨rfl, rfl⟩

/-- C4 counterexample: with both the target path and the pattern the empty
string, the two inputs are equal as strings, yet `matchesFilterPattern`
returns `false` (the function rejects a pattern that normalizes to the empty
string before testing equality), so exact string equality with the pattern
does not always short-circuit to a match. -/
theorem matchesFilterPattern_eq_cex :
    ("" : String) = "" ∧ matchesFilterPattern nodeGlob "" "" = false :=
  ⟨rfl, by decide⟩

/-- C4 amended: `matchesFilterPattern` is total for every glob matcher (it
returns a `Bool`, never propagating an exception); exact equality of the
target with the trimmed-and-normalized pattern short-circuits to a match
whenever that normalized pattern is non-empty; and whenever the glob matcher
throws, the result is a match exactly when that short-circuit equality holds. -/
theorem matchesFilterPattern_spec (g : Glob) (t p : String) :
    (normalizeRelativePathStr (jsTrimStr p) ≠ "" →
      t = normalizeRelativePathStr (jsTrimStr p) →
      matchesFilterPattern g t p = true) ∧
    (∀ e : Unit, g t (normalizeRelativePathStr (jsTrimStr p)) = Except.error e →
      (matchesFilterPattern g t p = true ↔
        normalizeRelativePathStr (jsTrimStr p) ≠ "" ∧
          t = normalizeRelativePathStr (jsTrimStr p))) := by
  constructor
  · intro hne heq
    unfold matchesFilterPattern
    simp [heq, hne]
  · intro e herr
    unfold matchesFilterPattern safeMatchesGlob
    by_cases hne : normalizeRelativePathStr (jsTrimStr p) = ""
    · simp [hne]
    · by_cases heq : t = normalizeRelativePathStr (jsTrimStr p)
      · simp [hne, heq]
      · simp [hne, heq, herr]

/-- Witness for `matchesFilterPattern_spec`: exact equality wins even when the
glob matcher throws on every input. -/
theorem matchesFilterPattern_spec_witness :
    matchesFilterPattern errGlob "a.ts" "a.ts" = true :=
  (matchesFilterPattern_spec errGlob "a.ts" "a.ts").1 (by decide) (by decide)

theorem strData_append (a b : String) : (a ++ b).data = a.data ++ b.data := rfl

theorem fsGet_set_self (fs : FS) (k v : String) : fsGet (fsSet fs k v) k = some v := by
  simp [fsGet, fsSet]

theorem fsGet_set_ne (fs : FS) (k v q : String) (h : k ≠ q) :
    fsGet (fsSet fs k v) q = fsGet fs q := by
  simp [fsGet, fsSet, h]

theorem fsGet_delete (fs : FS) (k q : String) :
    fsGet (fsDelete fs k) q = if k = q then none else fsGet fs q := by
  induction fs with
  | nil => by_cases h : k = q <;> simp [fsDelete, fsGet, h]
  | cons p t ih =>
    obtain ⟨a, b⟩ := p
    by_cases hak : a = k
    · subst hak
      by_cases hq : a = q
      · subst hq
        simp only [if_pos rfl] at ih
        simpa [fsDelete, fsGet] using ih
      · simp [fsDelete, fsGet, hq, ih]
    · by_cases hq : a = q
      · subst hq
        have hk : k ≠ a := fun h => hak h.symm
        simp [fsDelete, fsGet, hak, hk, ih]
      · by_cases hkq : k = q
        · subst hkq
          simp only [if_pos rfl] at ih
          simp [fsDelete, fsGet, hak, hq, ih]
        · simp [fsDelete, fsGet, hak, hq, hkq, ih]

theorem tmpName_ne (path pid time : String) : tmpName path pid time ≠ path := by
  intro h
  have hlen : (tmpName path pid time).data.length = path.data.length :=
    congrArg (fun s => s.data.length) h
  unfold tmpName at hlen
  simp only [strData_append, List.length_append] at hlen
  have h1 : (".".data).length = 1 := rfl
  have h4 : (".tmp".data).length = 4 := rfl
  rw [h1, h4] at hlen
  omega

/-- C6: the settings write is atomic.  If execution stops after the
temporary-file write but before the rename (simulated crash), the content
stored at the settings path is unchanged; a completed run — whether the
rename succeeded or fell back to a direct write — leaves the serialized
content at the settings path and no binding at the temporary path. -/
theorem writeSettings_atomic (fs : FS) (path pid time content : String) (renameOk : Bool) :
    fsGet (writeSettingsCrashAfterTmp fs path pid time content) path = fsGet fs path ∧
      fsGet (writeSettingsRun fs path pid time content renameOk) (tmpName path pid time) =
        none ∧
      fsGet (writeSettingsRun fs path pid time content renameOk) path = some content := by
  have hne := tmpName_ne path pid time
  refine ⟨fsGet_set_ne fs _ content path hne, ?_, ?_⟩
  · unfold writeSettingsRun
    rw [fsGet_delete]
    simp
  · unfold writeSettingsRun
    rw [fsGet_delete, if_neg hne]
    cases renameOk with
    | true =>
      have hget : fsGet (fsSet fs (tmpName path pid time) content) (tmpName path pid time) =
          some content := fsGet_set_self fs _ content
      simp only [if_pos rfl, fsRename, hget]
      exact fsGet_set_self _ path content
    | false =>
      simp only [Bool.false_eq_true, if_neg]
      exact fsGet_set_self _ path content

/-- C8: when a removal executes a global-scope target whose external command
exits zero and a project-scope target whose command exits non-zero, the
per-target results are exactly one success (the global target) and one
failure carrying an error message (the project target); the aggregation
reports exactly one changed scope and exactly one error, so the operation is
neither a total success nor a total failure. -/
theorem partial_removal_split (exec : RemovalTarget → ExecResult) (t1 t2 : RemovalTarget)
    (hs1 : t1.scope = Scope.global) (hs2 : t2.scope = Scope.project)
    (h1 : (exec t1).code = 0) (h2 : (exec t2).code ≠ 0) :
    executeRemovalTargets exec [t1, t2] =
        [⟨t1, true, none⟩, ⟨t2, false, some (removalErrorMessage t2 (exec t2))⟩] ∧
      successfulTargets (executeRemovalTargets exec [t1, t2]) = [t1] ∧
      removalFailures (executeRemovalTargets exec [t1, t2]) =
        [removalErrorMessage t2 (exec t2)] := by
  have herr : removalErrorMessage t2 (exec t2) ≠ "" := by
    intro h
    have hlen : (removalErrorMessage t2 (exec t2)).data.length = 0 := by
      rw [h]; rfl
    unfold removalErrorMessage at hlen
    simp only [strData_append, List.length_append] at hlen
    have h15 : ("Remove failed (".data).length = 15 := rfl
    rw [h15] at hlen
    omega
  have hexec : executeRemovalTargets exec [t1, t2] =
      [⟨t1, true, none⟩, ⟨t2, false, some (removalErrorMessage t2 (exec t2))⟩] := by
    simp [executeRemovalTargets, h1, h2]
  refine ⟨hexec, ?_, ?_⟩
  · rw [hexec]
    simp [successfulTargets]
  · rw [hexec]
    simp [removalFailures, herr]

/-- Witness for `partial_removal_split` at a concrete pair of targets and a
concrete external command outcome. -/
theorem partial_removal_split_witness :
    successfulTargets (executeRemovalTargets wRemovalExec [wGlobalTarget, wProjectTarget]) =
        [wGlobalTarget] ∧
      removalFailures (executeRemovalTargets wRemovalExec [wGlobalTarget, wProjectTarget]) =
        [removalErrorMessage wProjectTarget (wRemovalExec wProjectTarget)] :=
  (partial_removal_split wRemovalExec wGlobalTarget wProjectTarget
      rfl rfl (by decide) (by decide)).2

/-- C5: over a recursive listing of exactly `extensions/a.ts`,
`extensions/b.ts` and `extensions/c.js`, the manifest token
`extensions/*.ts` selects exactly the two `.ts` files in sorted order, and
adding the exclusion token `!extensions/b.ts` removes its matches from the
selection. -/
theorem manifest_glob_selection :
    resolveManifestExtensionEntries nodeGlob
        ["extensions/a.ts", "extensions/b.ts", "extensions/c.js"] ["extensions/*.ts"] =
      ["extensions/a.ts", "extensions/b.ts"] ∧
    resolveManifestExtensionEntries nodeGlob
        ["extensions/a.ts", "extensions/b.ts", "extensions/c.js"]
        ["extensions/*.ts", "!extensions/b.ts"] =
      ["extensions/a.ts"] :=
  ⟨by decide, by decide⟩

theorem mem_applySelection_add (sel : List String) (x : String) :
    x ∈ applySelection sel [x] false := by
  unfold applySelection
  simp only [List.foldl_cons, List.foldl_nil, if_neg (Bool.false_ne_true)]
  by_cases h : x ∈ sel
  · simp [h]
  · simp [h]

theorem mem_insertSorted (x a : String) (l : List String) (h : a ∈ l ∨ a = x) :
    a ∈ insertSorted x l := by
  induction l with
  | nil =>
    rcases h with h | h
    · cases h
    · simp [insertSorted, h]
  | cons y t ih =>
    unfold insertSorted
    by_cases hc : charListLe x.data y.data = true
    · rw [if_pos hc]
      rcases h with h | h
      · exact List.mem_cons_of_mem x h
      · simp [h]
    · rw [if_neg hc]
      rcases h with h | h
      · rcases List.mem_cons.mp h with h | h
        · simp [h]
        · exact List.mem_cons_of_mem y (ih (Or.inl h))
      · exact List.mem_cons_of_mem y (ih (Or.inr h))

theorem mem_sortStrings (a : String) (l : List String) (h : a ∈ l) : a ∈ sortStrings l := by
  suffices H : ∀ (l acc : List String), a ∈ acc ∨ a ∈ l →
      a ∈ l.foldl (fun acc x => insertSorted x acc) acc by
    exact H l [] (Or.inr h)
  intro l
  induction l with
  | nil =>
    intro acc hh
    rcases hh with hh | hh
    · simpa using hh
    · cases hh
  | cons x t ih =>
    intro acc hh
    simp only [List.foldl_cons]
    rcases hh with hh | hh
    · exact ih _ (Or.inl (mem_insertSorted x a acc (Or.inl hh)))
    · rcases List.mem_cons.mp hh with hh | hh
      · exact ih _ (Or.inl (mem_insertSorted x a acc (Or.inr hh)))
      · exact ih _ (Or.inr hh)

/-- C10: a manifest token that trims to a non-excluding, path-safe,
glob-free pattern matching no discovered directory prefix and ending in an
extension-entrypoint suffix is added to the selection directly, with no
existence check against the recursive file listing. -/
theorem direct_file_token_added (g : Glob) (allFiles selected : List String) (tok : String)
    (hx : strStartsWith (jsTrimStr tok) "!" = false)
    (hsafe : isSafeRelativePath
        (stripTrailingSlashes (normalizeRelativePathStr (jsTrimStr tok))) = true)
    (hg : hasGlobMagic
        (stripTrailingSlashes (normalizeRelativePathStr (jsTrimStr tok))) = false)
    (hdir : selectDirectoryFiles allFiles
        (stripTrailingSlashes (normalizeRelativePathStr (jsTrimStr tok))) = [])
    (hext : isExtensionEntrypointPath
        (stripTrailingSlashes (normalizeRelativePathStr (jsTrimStr tok))) = true) :
    stripTrailingSlashes (normalizeRelativePathStr (jsTrimStr tok)) ∈
        processManifestToken g allFiles selected tok ∧
      stripTrailingSlashes (normalizeRelativePathStr (jsTrimStr tok)) ∈
        resolveManifestExtensionEntries g allFiles [tok] := by
  have htok : (jsTrimStr tok == "") = false := by
    cases he : (jsTrimStr tok == "") with
    | false => rfl
    | true =>
      have heq : jsTrimStr tok = "" := eq_of_beq he
      rw [heq] at hsafe
      exact absurd hsafe (by decide)
  have hmem : ∀ sel, stripTrailingSlashes (normalizeRelativePathStr (jsTrimStr tok)) ∈
      processManifestToken g allFiles sel tok := by
    intro sel
    unfold processManifestToken
    simp only [htok, Bool.false_eq_true, if_false, hx, if_neg (Bool.false_ne_true),
      hsafe, Bool.not_true, hg, hdir, hext, List.isEmpty_nil, Bool.not_false, if_true]
    exact mem_applySelection_add sel _
  refine ⟨hmem selected, ?_⟩
  unfold resolveManifestExtensionEntries
  simp only [List.foldl_cons, List.foldl_nil]
  exact mem_sortStrings _ _ (hmem [])

/-- Witness for `direct_file_token_added`: the token `extensions/ghost.ts`
is selected although the file listing is empty. -/
theorem direct_file_token_added_witness :
    stripTrailingSlashes (normalizeRelativePathStr (jsTrimStr "extensions/ghost.ts")) ∈
        processManifestToken nodeGlob [] [] "extensions/ghost.ts" ∧
      stripTrailingSlashes (normalizeRelativePathStr (jsTrimStr "extensions/ghost.ts")) ∈
        resolveManifestExtensionEntries nodeGlob [] ["extensions/ghost.ts"] :=
  direct_file_token_added nodeGlob [] [] "extensions/ghost.ts"
    (by decide) (by decide) (by decide) (by decide) (by decide)

/-- C9: the sources `npm:demo@1.0.0` and `demo (pinned)` denote the same
underlying package: both normalize to the identity `npm:demo`, so a removal
issued against either source string matches the installed records of both. -/
theorem packageIdentity_normalizes (fb1 fb2 : Option String) (n1 n2 : String)
    (sc1 sc2 : Scope) :
    packageIdentity "npm:demo@1.0.0" fb1 = "npm:demo" ∧
      packageIdentity "demo (pinned)" fb2 = "npm:demo" ∧
      (([⟨"npm:demo@1.0.0", n1, sc1⟩, ⟨"demo (pinned)", n2, sc2⟩] :
          List InstalledPackage).filter
        (fun p => packageIdentity p.source (some p.name) ==
          packageIdentity "npm:demo@1.0.0" none)) =
        [⟨"npm:demo@1.0.0", n1, sc1⟩, ⟨"demo (pinned)", n2, sc2⟩] :=
  ⟨rfl, rfl, rfl⟩

theorem jsTrim_eq_self (cs : List Char)
    (hhead : ∀ c, cs.head? = some c → isWs c = false)
    (hlast : ∀ c, cs.getLast? = some c → isWs c = false) :
    jsTrim cs = cs := by
  unfold jsTrim
  have h1 : cs.dropWhile isWs = cs := by
    cases cs with
    | nil => rfl
    | cons c t =>
      rw [List.dropWhile_cons, hhead c rfl]
      simp
  rw [h1]
  have h2 : cs.reverse.dropWhile isWs = cs.reverse := by
    cases hrev : cs.reverse with
    | nil => rfl
    | cons c t =>
      have hc : cs.getLast? = some c := by
        rw [← List.head?_reverse, hrev]
        rfl
      rw [List.dropWhile_cons, hlast c hc]
      simp
  rw [h2, List.reverse_reverse]

theorem markerFor_data (target : State) (np : String) :
    (markerFor target np).data =
      (if target = State.enabled then '+' else '-') :: np.data := by
  cases target <;> rfl

theorem markerFor_trim (target : State) (np : String) (h1 : noTrailingWs np = true) :
    jsTrimStr (markerFor target np) = markerFor target np := by
  have hhead : ∀ c, (markerFor target np).data.head? = some c → isWs c = false := by
    intro c hc
    rw [markerFor_data] at hc
    cases target <;> simp_all <;> subst hc <;> rfl
  have hlast : ∀ c, (markerFor target np).data.getLast? = some c → isWs c = false := by
    intro c hc
    rw [markerFor_data] at hc
    cases hnp : np.data with
    | nil =>
      rw [hnp] at hc
      cases target <;> simp_all <;> subst hc <;> rfl
    | cons d t =>
      rw [hnp, List.getLast?_cons_cons] at hc
      unfold noTrailingWs at h1
      rw [hnp, hc] at h1
      simpa using h1
  calc jsTrimStr (markerFor target np)
      = ⟨jsTrim (markerFor target np).data⟩ := rfl
    _ = ⟨(markerFor target np).data⟩ := by rw [jsTrim_eq_self _ hhead hlast]
    _ = markerFor target np := rfl

theorem isMarkerFor_markerFor (target : State) (np : String)
    (h1 : noTrailingWs np = true) (h2 : normalizeRelativePathStr np = np) :
    isMarkerFor np (markerFor target np) = true := by
  unfold isMarkerFor
  rw [markerFor_trim target np h1, markerFor_data]
  cases target <;> simp [h2]

theorem markerState_markerFor (target : State) (np : String)
    (h1 : noTrailingWs np = true) :
    markerState (markerFor target np) = target := by
  unfold markerState
  rw [markerFor_trim target np h1, markerFor_data]
  cases target <;> rfl

theorem lastMarkerFor_append (target : String) (l : List String) (m : String)
    (hm : isMarkerFor target m = true) :
    lastMarkerFor target (l ++ [m]) = some m := by
  induction l with
  | nil => simp [lastMarkerFor, hm]
  | cons t rest ih => simp [lastMarkerFor, ih]

theorem filterState_with_marker (g : Glob) (l : List String) (path : String)
    (target : State)
    (h1 : noTrailingWs (normalizeRelativePathStr path) = true)
    (h2 : normalizeRelativePathStr (normalizeRelativePathStr path) =
      normalizeRelativePathStr path) :
    getPackageFilterState g
        (some (l ++ [markerFor target (normalizeRelativePathStr path)])) path = target := by
  have hm : isMarkerFor (normalizeRelativePathStr path)
      (markerFor target (normalizeRelativePathStr path)) = true :=
    isMarkerFor_markerFor target _ h1 h2
  have hne : l ++ [markerFor target (normalizeRelativePathStr path)] ≠ [] := by simp
  simp only [getPackageFilterState]
  rw [if_neg hne, foldl_marker, lastMarkerFor_append _ l _ hm]
  exact markerState_markerFor target _ h1

theorem entrySource_update (e : PackageEntry) (np marker : String) :
    entrySource (updateEntry e np marker) = entrySource e := by
  cases e <;> rfl

theorem find_setInList (ns src np marker : String) (l : List PackageEntry)
    (hns : (normalizeSource src == ns) = true) :
    (setInList ns src np marker l).find?
        (fun pkg => normalizeSource (entrySource pkg) == ns) =
      some (match l.find? (fun pkg => normalizeSource (entrySource pkg) == ns) with
            | none => PackageEntry.obj src (some [marker])
            | some e => updateEntry e np marker) := by
  induction l with
  | nil => simp [setInList, List.find?, entrySource, hns]
  | cons e rest ih =>
    by_cases he : (normalizeSource (entrySource e) == ns) = true
    · simp [setInList, List.find?, he, entrySource_update]
    · have he' : (normalizeSource (entrySource e) == ns) = false :=
        Bool.eq_false_iff.mpr he
      simp [setInList, List.find?, he', ih]

/-- C3 counterexample: for the extension path `././a.ts` (whose
normalization `./a.ts` is not a fixed point of normalization), setting the
state to disabled and reading it back yields enabled: the written marker
`-./a.ts` re-normalizes to `a.ts` inside the resolver and no longer matches
the target `./a.ts`. -/
theorem set_then_get_cex :
    setPackageExtensionStateCore ⟨none⟩ "npm:demo" "././a.ts" State.disabled =
        ⟨some [PackageEntry.obj "npm:demo" (some ["-./a.ts"])]⟩ ∧
      getPackageExtensionState nodeGlob
        (setPackageExtensionStateCore ⟨none⟩ "npm:demo" "././a.ts" State.disabled)
        "npm:demo" "././a.ts" = State.enabled :=
  ⟨by decide, by decide⟩

/-- C3 amended: provided the normalized extension path is a fixed point of
normalization and has no trailing whitespace, setting a package extension
state and reading it back returns the written state, and every pre-existing
token of the matched package entry that is not a raw override marker for the
normalized path survives verbatim and in its original relative order. -/
theorem set_then_get_roundtrip (g : Glob) (settings : SettingsFile)
    (source path : String) (target : State)
    (h1 : noTrailingWs (normalizeRelativePathStr path) = true)
    (h2 : normalizeRelativePathStr (normalizeRelativePathStr path) =
      normalizeRelativePathStr path) :
    getPackageExtensionState g (setPackageExtensionStateCore settings source path target)
        source path = target ∧
      (∀ s exts,
        (settings.packages.getD []).find?
            (fun pkg => normalizeSource (entrySource pkg) == normalizeSource source) =
          some (PackageEntry.obj s exts) →
        ∃ newExts,
          ((setPackageExtensionStateCore settings source path target).packages.getD
              []).find?
              (fun pkg => normalizeSource (entrySource pkg) == normalizeSource source) =
            some (PackageEntry.obj s (some newExts)) ∧
          List.Sublist
            ((exts.getD []).filter
              (fun t => !(isRemovalMarker (normalizeRelativePathStr path) t)))
            newExts) := by
  have hns : (normalizeSource source == normalizeSource source) = true := by simp
  have hfind := find_setInList (normalizeSource source) source
    (normalizeRelativePathStr path) (markerFor target (normalizeRelativePathStr path))
    (settings.packages.getD []) hns
  constructor
  · simp only [getPackageExtensionState, setPackageExtensionStateCore, Option.getD_some]
    rw [hfind]
    rcases hold : (settings.packages.getD []).find?
        (fun pkg => normalizeSource (entrySource pkg) == normalizeSource source) with _ | e
    · simpa using filterState_with_marker g [] path target h1 h2
    · cases e with
      | bare s => simpa [updateEntry] using filterState_with_marker g [] path target h1 h2
      | obj s exts =>
        simpa [updateEntry] using
          filterState_with_marker g
            ((exts.getD []).filter
              (fun t => !(isRemovalMarker (normalizeRelativePathStr path) t)))
            path target h1 h2
  · intro s exts hold
    rw [hold] at hfind
    refine ⟨(exts.getD []).filter
        (fun t => !(isRemovalMarker (normalizeRelativePathStr path) t)) ++
        [markerFor target (normalizeRelativePathStr path)], ?_, ?_⟩
    · simpa [setPackageExtensionStateCore, updateEntry] using hfind
    · exact List.sublist_append_left _ _

/-- Witness for `set_then_get_roundtrip`: disable `a.ts` in a document whose
entry already carries an include, a stale marker and an annotation token. -/
theorem set_then_get_roundtrip_witness :
    noTrailingWs (normalizeRelativePathStr "a.ts") = true ∧
      getPackageExtensionState nodeGlob
        (setPackageExtensionStateCore
          ⟨some [PackageEntry.obj "npm:demo" (some ["extensions/x.ts", "+a.ts", "junk"])]⟩
          "npm:demo" "a.ts" State.disabled)
        "npm:demo" "a.ts" = State.disabled :=
  ⟨by decide,
   (set_then_get_roundtrip nodeGlob
       ⟨some [PackageEntry.obj "npm:demo" (some ["extensions/x.ts", "+a.ts", "junk"])]⟩
       "npm:demo" "a.ts" State.disabled (by decide) (by decide)).1⟩

theorem toLower_of_isWs (c : Char) (h : isWs c = true) : c.toLower = c := by
  unfold isWs at h
  simp only [Bool.or_eq_true, beq_iff_eq] at h
  rcases h with ((((h | h) | h) | h) | h) | h <;> subst h <;> decide

theorem eq_space_of_toLower (c : Char) (hl : c.toLower = ' ') : c = ' ' := by
  unfold Char.toLower at hl
  by_cases h : 65 ≤ c.toNat ∧ c.toNat ≤ 90
  · rw [if_pos h] at hl
    have hv : (c.toNat + 32).isValidChar := by
      unfold Nat.isValidChar
      left
      omega
    have ht : (Char.ofNat (c.toNat + 32)).toNat = c.toNat + 32 := by
      rw [Char.ofNat, dif_pos hv]
      simp [Char.ofNatAux, Char.toNat, UInt32.toNat, BitVec.toNat_ofNatLt]
    rw [hl] at ht
    have hsp : (' ').toNat = 32 := rfl
    omega
  · rw [if_neg h] at hl
    exact hl

theorem space_of_lowerEq (c : Char) (h : lowerEq ' ' c = true) : c = ' ' := by
  have hlc : (' ').toLower = c.toLower := by simpa [lowerEq] using h
  have : c.toLower = ' ' := by rw [← hlc]; rfl
  exact eq_space_of_toLower c this

theorem not_ws_of_lowerEq (l c : Char) (hl : isWs l.toLower = false)
    (h : lowerEq l c = true) : isWs c = false := by
  cases hw : isWs c with
  | false => rfl
  | true =>
    have hc : c.toLower = c := toLower_of_isWs c hw
    have hlc : l.toLower = c.toLower := by simpa [lowerEq] using h
    rw [hc] at hlc
    rw [hlc] at hl
    rw [hl] at hw
    cases hw

theorem eatCI_cons_inv (l : Char) (ls cs r : List Char)
    (h : eatCI (l :: ls) cs = some r) :
    ∃ c t, cs = c :: t ∧ lowerEq l c = true ∧ eatCI ls t = some r := by
  cases cs with
  | nil => simp [eatCI] at h
  | cons c t =>
    by_cases hl : lowerEq l c = true
    · exact ⟨c, t, rfl, hl, by simpa [eatCI, hl] using h⟩
    · simp [eatCI, hl] at h

theorem eatCI_append_inv (l1 l2 cs r : List Char)
    (h : eatCI (l1 ++ l2) cs = some r) :
    ∃ mid, eatCI l1 cs = some mid ∧ eatCI l2 mid = some r := by
  induction l1 generalizing cs with
  | nil => exact ⟨cs, rfl, h⟩
  | cons l ls ih =>
    rw [List.cons_append] at h
    obtain ⟨c, t, hct, hl, hrest⟩ := eatCI_cons_inv l (ls ++ l2) cs r h
    obtain ⟨mid, h1, h2⟩ := ih t hrest
    exact ⟨mid, by rw [hct]; simp [eatCI, hl, h1], h2⟩

theorem eatCI_some_split (lit : List Char) : ∀ cs r, eatCI lit cs = some r →
    ∃ w, cs = w ++ r ∧ ciEqList w lit = true := by
  induction lit with
  | nil =>
    intro cs r h
    have hcs : cs = r := by simpa [eatCI] using h
    exact ⟨[], by rw [hcs]; simp, rfl⟩
  | cons l ls ih =>
    intro cs r h
    obtain ⟨c, t, hct, hl, hrest⟩ := eatCI_cons_inv l ls cs r h
    obtain ⟨w, hw, hci⟩ := ih t r hrest
    exact ⟨c :: w, by rw [hct, hw]; simp, by simp [ciEqList, hl, hci]⟩

theorem eatCI_of_ciEq (lit : List Char) : ∀ w rest, ciEqList w lit = true →
    eatCI lit (w ++ rest) = some rest := by
  induction lit with
  | nil =>
    intro w rest h
    cases w with
    | nil => rfl
    | cons a as => simp [ciEqList] at h
  | cons l ls ih =>
    intro w rest h
    cases w with
    | nil => simp [ciEqList] at h
    | cons a as =>
      have hh : lowerEq l a = true ∧ ciEqList as ls = true := by
        simpa [ciEqList] using h
      show eatCI (l :: ls) (a :: (as ++ rest)) = some rest
      simp [eatCI, hh.1, ih as rest hh.2]

theorem ciEq_refl (lit : List Char) : ciEqList lit lit = true := by
  induction lit with
  | nil => rfl
  | cons l ls ih => simp [ciEqList, lowerEq, ih]

theorem eatCI_self (lit r : List Char) : eatCI lit (lit ++ r) = some r :=
  eatCI_of_ciEq lit lit r (ciEq_refl lit)

theorem dropWhile_eq_self_of_head (t : List Char)
    (h : ∀ c t2, t = c :: t2 → isWs c = false) : t.dropWhile isWs = t := by
  cases t with
  | nil => rfl
  | cons c t2 =>
    rw [List.dropWhile_cons, h c t2 rfl]
    simp

theorem head_not_ws_of_eatCI (l : Char) (ls t r : List Char)
    (hlow : isWs l.toLower = false) (h : eatCI (l :: ls) t = some r) :
    ∀ c t2, t = c :: t2 → isWs c = false := by
  intro c t2 ht
  obtain ⟨c2, t3, hct, hl, _⟩ := eatCI_cons_inv l ls t r h
  rw [ht] at hct
  cases hct
  exact not_ws_of_lowerEq l c hlow hl

theorem alreadyAt_of_eatCI (cs r : List Char)
    (h : eatCI "already up to date".data cs = some r) : alreadyAt cs = true := by
  have hsplit : "already up to date".data =
      "already".data ++ (' ' :: ("up".data ++ (' ' ::
        ("to".data ++ (' ' :: "date".data))))) := rfl
  rw [hsplit] at h
  obtain ⟨m1, hA, h⟩ := eatCI_append_inv _ _ _ _ h
  obtain ⟨sp1, t1, hm1, hsp1, h⟩ := eatCI_cons_inv _ _ _ _ h
  obtain ⟨m2, hUp, h⟩ := eatCI_append_inv _ _ _ _ h
  obtain ⟨sp2, t2, hm2, hsp2, h⟩ := eatCI_cons_inv _ _ _ _ h
  obtain ⟨m3, hTo, h⟩ := eatCI_append_inv _ _ _ _ h
  obtain ⟨sp3, t3, hm3, hsp3, hDate⟩ := eatCI_cons_inv _ _ _ _ h
  have hw1 : eatWs1 m1 = some (t1.dropWhile isWs) := by
    rw [hm1, space_of_lowerEq sp1 hsp1]
    simp [eatWs1, isWs]
  have ht1 : t1.dropWhile isWs = t1 := by
    apply dropWhile_eq_self_of_head
    exact head_not_ws_of_eatCI 'u' _ t1 m2 (by decide)
      (by rw [show ("up".data : List Char) = 'u' :: "p".data from rfl] at hUp; exact hUp)
  have hw2 : eatWs1 m2 = some (t2.dropWhile isWs) := by
    rw [hm2, space_of_lowerEq sp2 hsp2]
    simp [eatWs1, isWs]
  have ht2 : t2.dropWhile isWs = t2 := by
    apply dropWhile_eq_self_of_head
    exact head_not_ws_of_eatCI 't' _ t2 m3 (by decide)
      (by rw [show ("to".data : List Char) = 't' :: "o".data from rfl] at hTo; exact hTo)
  have hw3 : eatWs1 m3 = some (t3.dropWhile isWs) := by
    rw [hm3, space_of_lowerEq sp3 hsp3]
    simp [eatWs1, isWs]
  have ht3 : t3.dropWhile isWs = t3 := by
    apply dropWhile_eq_self_of_head
    exact head_not_ws_of_eatCI 'd' _ t3 r (by decide)
      (by rw [show ("date".data : List Char) = 'd' :: "ate".data from rfl] at hDate; exact hDate)
  unfold alreadyAt
  simp only [hA, hw1, ht1, hUp, hw2, ht2, hTo, hw3, ht3, hDate, Option.isSome_some]

theorem scanAlready_of_containsCI (cs : List Char)
    (h : containsCI "already up to date".data cs = true) : scanAlready cs = true := by
  induction cs with
  | nil => simp [containsCI, eatCI] at h
  | cons c t ih =>
    unfold containsCI at h
    unfold scanAlready
    cases h1 : (eatCI "already up to date".data (c :: t)).isSome with
    | true =>
      obtain ⟨r, hr⟩ := Option.isSome_iff_exists.mp h1
      rw [alreadyAt_of_eatCI (c :: t) r hr]
      simp
    | false =>
      rw [h1] at h
      simp only [Bool.false_or] at h
      rw [ih h]
      simp

theorem pinnedScan_here (suffix : List Char) (hs : pinnedAt suffix = true) :
    pinnedScan true suffix = true := by
  cases suffix with
  | nil => simpa [pinnedScan] using hs
  | cons c t => simp [pinnedScan, hs]

theorem pinnedScan_after_newline (suffix : List Char) (hs : pinnedAt suffix = true) :
    ∀ (pre2 : List Char) (b : Bool), pinnedScan b ((pre2 ++ ['\n']) ++ suffix) = true := by
  intro pre2
  induction pre2 with
  | nil =>
    intro b
    show pinnedScan b ('\n' :: suffix) = true
    unfold pinnedScan
    rw [show ('\n' == '\n') = true from rfl, pinnedScan_here suffix hs]
    simp
  | cons c t ih =>
    intro b
    show pinnedScan b (c :: ((t ++ ['\n']) ++ suffix)) = true
    unfold pinnedScan
    rw [ih (c == '\n')]
    simp

theorem pinnedAt_marker_cases (rest : List Char)
    (hrest : rest = [] ∨
      (∃ c rest2, rest = c :: rest2 ∧ (c = ':' ∨ c = '(' ∨ c = '-')) ∨
      ((∃ rest2, rest = '\n' :: rest2) ∧ wsDepLookahead rest = false)) :
    pinnedAt ("pinned".data ++ rest) = true := by
  have hdrop : ("pinned".data ++ rest).dropWhile isWs = "pinned".data ++ rest := by
    show List.dropWhile isWs ('p' :: ("inned".data ++ rest)) = _
    rw [List.dropWhile_cons, show isWs 'p' = false from rfl]
    simp
  have heat : eatCI "pinned".data ("pinned".data ++ rest) = some rest :=
    eatCI_self "pinned".data rest
  unfold pinnedAt
  rw [hdrop]
  simp only [heat]
  rcases hrest with hrest | hrest | hrest
  · subst hrest
    decide
  · obtain ⟨c, rest2, hr, hc⟩ := hrest
    subst hr
    rcases hc with hc | hc | hc <;> subst hc <;>
      simp [isWordChar, wsDepLookahead, eatWs1, isWs, pinnedTail, List.dropWhile_cons,
        List.takeWhile_cons]
  · obtain ⟨⟨rest2, hr⟩, hwd⟩ := hrest
    subst hr
    rw [hwd]
    simp [isWordChar, pinnedTail, List.takeWhile_cons, isWs]

theorem pinnedScan_true_split (cs : List Char) : ∀ b, pinnedScan b cs = true →
    ∃ pre suffix, cs = pre ++ suffix ∧ pinnedAt suffix = true := by
  induction cs with
  | nil =>
    intro b h
    unfold pinnedScan at h
    exact ⟨[], [], rfl, (Bool.and_eq_true_iff.mp h).2⟩
  | cons c t ih =>
    intro b h
    unfold pinnedScan at h
    rcases Bool.or_eq_true_iff.mp h with h1 | h2
    · exact ⟨[], c :: t, rfl, (Bool.and_eq_true_iff.mp h1).2⟩
    · obtain ⟨pre, suffix, hps, hat⟩ := ih (c == '\n') h2
      exact ⟨c :: pre, suffix, by rw [hps]; rfl, hat⟩

theorem pinnedAt_split (cs : List Char) (h : pinnedAt cs = true) :
    ∃ ws w r, cs = ws ++ w ++ r ∧ ciEqList w "pinned".data = true ∧
      wsDepLookahead r = false := by
  unfold pinnedAt at h
  rcases he : eatCI "pinned".data (cs.dropWhile isWs) with _ | r
  · rw [he] at h
    exact Bool.noConfusion h
  · simp only [he] at h
    have hwd : wsDepLookahead r = false := by
      have hnot := (Bool.and_eq_true_iff.mp (Bool.and_eq_true_iff.mp h).1).2
      cases hw : wsDepLookahead r
      · rfl
      · rw [hw] at hnot
        exact absurd hnot (by decide)
    obtain ⟨w, hw, hci⟩ := eatCI_some_split "pinned".data _ r he
    refine ⟨cs.takeWhile isWs, w, r, ?_, hci, hwd⟩
    have hcs : cs = cs.takeWhile isWs ++ (w ++ r) := by
      rw [← hw]
      exact (List.takeWhile_append_dropWhile isWs cs).symm
    nth_rewrite 1 [hcs]
    exact (List.append_assoc _ w r).symm

theorem pinnedOnlyDep_all (pre : List Char) : ∀ cs w r, pinnedOnlyDep cs = true →
    cs = pre ++ w ++ r → ciEqList w "pinned".data = true → wsDepLookahead r = true := by
  induction pre with
  | nil =>
    intro cs w r hp hcs hci
    cases w with
    | nil => simp [ciEqList] at hci
    | cons a as =>
      subst hcs
      have heat : eatCI "pinned".data (a :: (as ++ r)) = some r := by
        have hself := eatCI_of_ciEq "pinned".data (a :: as) r hci
        simpa using hself
      simp only [List.nil_append, List.cons_append] at hp
      unfold pinnedOnlyDep at hp
      have h1 := (Bool.and_eq_true_iff.mp hp).1
      simp only [heat] at h1
      exact h1
  | cons c pre2 ih =>
    intro cs w r hp hcs hci
    subst hcs
    unfold pinnedOnlyDep at hp
    have h2 := (Bool.and_eq_true_iff.mp hp).2
    exact ih _ w r h2 rfl hci

/-- C7 counterexample: the stdout `pinned\ndependency x` contains a line
consisting exactly of `pinned` (anchored at line start and followed by end
of line), yet the classifier returns `false`, because the negative lookahead
`(?!\s+dependency\b)` scans across the newline and sees `dependency` at the
start of the next line. -/
theorem isUpToDateOutput_cex :
    claimPinnedAnchored "pinned\ndependency x" = true ∧
      isUpToDateOutput "pinned\ndependency x" = false :=
  ⟨by decide, by decide⟩

/-- C7 amended: the classifier returns true when the stdout contains
`already up to date` in any letter case; it returns true when `pinned`
stands at a line start followed by end of input, a colon, an opening
parenthesis or a dash, or followed by a newline provided the text after
`pinned` does not continue — even across the line break — with whitespace
and a word-bounded `dependency`; it returns false when every
case-insensitive occurrence of `pinned` is followed by whitespace and a
word-bounded `dependency` and the up-to-date phrase is absent; and a true
classification of a zero-exit command is reported as the no-op outcome,
which is distinct from the genuine-update outcome and from every
non-zero-exit failure outcome. -/
theorem isUpToDateOutput_spec :
    (∀ s : String, containsCI "already up to date".data s.data = true →
      isUpToDateOutput s = true) ∧
    (∀ (s : String) (pre rest : List Char),
      s.data = pre ++ "pinned".data ++ rest →
      (pre = [] ∨ ∃ pre2, pre = pre2 ++ ['\n']) →
      (rest = [] ∨
        (∃ c rest2, rest = c :: rest2 ∧ (c = ':' ∨ c = '(' ∨ c = '-')) ∨
        ((∃ rest2, rest = '\n' :: rest2) ∧ wsDepLookahead rest = false)) →
      isUpToDateOutput s = true) ∧
    (∀ s : String, scanAlready s.data = false → pinnedOnlyDep s.data = true →
      isUpToDateOutput s = false) ∧
    (∀ res : ExecResult,
      (res.code = 0 → isUpToDateOutput res.stdout = true →
        classifyUpdateOutcome res = UpdateOutcome.upToDate) ∧
      (res.code = 0 → isUpToDateOutput res.stdout = false →
        classifyUpdateOutcome res = UpdateOutcome.updated) ∧
      (res.code ≠ 0 →
        classifyUpdateOutcome res = UpdateOutcome.failed (updateErrorMessage res)) ∧
      (∀ msg, UpdateOutcome.upToDate ≠ UpdateOutcome.updated ∧
        UpdateOutcome.upToDate ≠ UpdateOutcome.failed msg ∧
        UpdateOutcome.updated ≠ UpdateOutcome.failed msg)) := by
  refine ⟨?_, ?_, ?_, ?_⟩
  · intro s h
    unfold isUpToDateOutput
    rw [scanAlready_of_containsCI s.data h]
    simp
  · intro s pre rest hdecomp hpre hrest
    have hat : pinnedAt ("pinned".data ++ rest) = true := pinnedAt_marker_cases rest hrest
    unfold isUpToDateOutput
    have hps : pinnedScan true s.data = true := by
      rcases hpre with hpre | ⟨pre2, hpre⟩
      · subst hpre
        rw [hdecomp]
        exact pinnedScan_here _ hat
      · subst hpre
        rw [hdecomp]
        have happ := pinnedScan_after_newline _ hat pre2 true
        simpa [List.append_assoc] using happ
    rw [hps]
    simp
  · intro s hA hP
    unfold isUpToDateOutput
    rw [hA]
    simp only [Bool.false_or]
    cases hps : pinnedScan true s.data with
    | false => rfl
    | true =>
      exfalso
      obtain ⟨pre, suffix, heq, hat⟩ := pinnedScan_true_split s.data true hps
      obtain ⟨ws, w, r, hsuf, hciw, hwd⟩ := pinnedAt_split suffix hat
      have hw : wsDepLookahead r = true :=
        pinnedOnlyDep_all (pre ++ ws) s.data w r hP
          (by rw [heq, hsuf]; simp [List.append_assoc]) hciw
      rw [hw] at hwd
      cases hwd
  · intro res
    refine ⟨?_, ?_, ?_, ?_⟩
    · intro h0 ht
      simp [classifyUpdateOutcome, h0, ht]
    · intro h0 hf
      simp [classifyUpdateOutcome, h0, hf]
    · intro hne
      simp [classifyUpdateOutcome, hne]
    · intro msg
      refine ⟨?_, ?_, ?_⟩ <;> intro hcon <;> exact UpdateOutcome.noConfusion hcon

/-- Witness for `isUpToDateOutput_spec`: a contained up-to-date phrase, an
anchored `pinned:` status line, a `pinned dependency` phrasing, and the
three distinct report outcomes at concrete command results. -/
theorem isUpToDateOutput_spec_witness :
    isUpToDateOutput "demo: already up to date" = true ∧
      isUpToDateOutput "pinned: 1.0.0" = true ∧
      isUpToDateOutput "pinned dependency bumped" = false ∧
      classifyUpdateOutcome ⟨0, "pinned: 1.0.0", ""⟩ = UpdateOutcome.upToDate ∧
      classifyUpdateOutcome ⟨0, "updated demo", ""⟩ = UpdateOutcome.updated ∧
      classifyUpdateOutcome ⟨1, "", "boom"⟩ =
        UpdateOutcome.failed (updateErrorMessage ⟨1, "", "boom"⟩) :=
  ⟨isUpToDateOutput_spec.1 "demo: already up to date" (by decide),
   isUpToDateOutput_spec.2.1 "pinned: 1.0.0" [] (':' :: " 1.0.0".data)
     (by decide) (Or.inl rfl)
     (Or.inr (Or.inl ⟨':', " 1.0.0".data, rfl, Or.inl rfl⟩)),
   isUpToDateOutput_spec.2.2.1 "pinned dependency bumped" (by decide) (by decide),
   (isUpToDateOutput_spec.2.2.2 ⟨0, "pinned: 1.0.0", ""⟩).1 rfl (by decide),
   (isUpToDateOutput_spec.2.2.2 ⟨0, "updated demo", ""⟩).2.1 rfl (by decide),
   (isUpToDateOutput_spec.2.2.2 ⟨1, "", "boom"⟩).2.2.1 (by decide)⟩
